import Mathlib

set_option maxHeartbeats 1000000

namespace SanicRestplus

/-- Python-style JSON-ish values manipulated by the engine: `vnull` is Python
`None`, `vmap` an (insertion-ordered) dict, `vlist` a list/tuple of values. -/
inductive Value where
  | vnull : Value
  | vstr (s : String) : Value
  | vint (n : Int) : Value
  | vbool (b : Bool) : Value
  | vlist (xs : List Value) : Value
  | vmap (kvs : List (String × Value)) : Value
deriving Repr

/-- A model field as seen by the resolution engine in `model.py`: only the
`discriminator` flag and the `default` attribute of a field descriptor are
read or written by `ModelBase.ancestors`, `get_parent` and `RawModel._resolved`,
so the embedding projects a descriptor to those attributes. -/
structure MField where
  discriminator : Bool
  default : Value
deriving Repr

/-- A model (`ModelBase`/`RawModel` in `model.py`): a public `name`, the
insertion-ordered own field dict, and the `__parents__` list. -/
inductive PModel where
  | mk (name : String) (fields : List (String × MField)) (parents : List PModel)
deriving Repr

def PModel.name : PModel → String
  | .mk n _ _ => n

def PModel.fields : PModel → List (String × MField)
  | .mk _ fs _ => fs

def PModel.parents : PModel → List PModel
  | .mk _ _ ps => ps

/-- `ModelBase.ancestors`: `set.union(set([self.name]), *[p.ancestors for p in
self.__parents__])`.  The set is represented by the list of its elements
(membership is what the claims quantify over). -/
def ancestors : PModel → List String
  | .mk n _ ps => n :: (ps.attach.map (fun p => ancestors p.1)).flatten
termination_by m => sizeOf m
decreasing_by
  have h := List.sizeOf_lt_of_mem p.2
  simp only [PModel.mk.sizeOf_spec]
  omega

/-- Python truthiness of a `Model`: `Model` subclasses `dict`, so a model is
truthy exactly when its own field dict is non-empty.  `get_parent` tests the
recursive result with `if found:`. -/
def PModel.truthy : PModel → Bool
  | .mk _ fs _ => !fs.isEmpty

mutual

/-- `ModelBase.get_parent(name)`: returns `self` when the name matches, else
loops over `self.__parents__` calling `parent.get_parent(name)`.  A recursive
call that does not find the name RAISES `ValueError`, which propagates out of
the loop (modelled by `Except.error`); a falsy (empty-dict) result makes the
loop move on to the next parent. -/
def get_parent : PModel → String → Except String PModel
  | .mk n fs ps, name =>
    if n = name then .ok (.mk n fs ps)
    else get_parent_loop ps name

/-- The `for parent in self.__parents__` loop body of `get_parent`, including
the final `raise ValueError('Parent ' + name + ' not found')` when the loop
finishes without returning. -/
def get_parent_loop : List PModel → String → Except String PModel
  | [], name => .error ("Parent " ++ name ++ " not found")
  | p :: ps, name =>
    match get_parent p name with
    | .error e => .error e
    | .ok found => if found.truthy then .ok found else get_parent_loop ps name

end

/-- `ModelBase.inherit(name, *parents)`: `model = cls(name, parents[-1])`
(the new model's own field dict is a copy of the last argument's dict) and
`model.__parents__ = parents[:-1]`.  An empty argument tuple raises
(`parents[-1]` IndexError), modelled as `none`.  A bare fields mapping passed
as the last argument corresponds here to the `fields` component of a `PModel`
(its `name`/`parents` are never read in that position). -/
def inherit (name : String) (parents : List PModel) : Option PModel :=
  match parents.getLast? with
  | none => none
  | some last => some (.mk name last.fields parents.dropLast)

/-- The bound `instance_inherit` method installed by `ModelBase.__init__`:
`self.inherit(name, *parents)` calls the classmethod with `self` prepended. -/
def instance_inherit (self : PModel) (name : String) (parents : List PModel) :
    Option PModel :=
  inherit name (self :: parents)

/-- Python `dict.update`: keys already present keep their position and get the
new value; new keys are appended in order. -/
def dictUpdate (base extra : List (String × MField)) : List (String × MField) :=
  extra.foldl (fun acc kv =>
    if acc.any (fun kv0 => kv0.1 = kv.1) then
      acc.map (fun kv0 => if kv0.1 = kv.1 then (kv0.1, kv.2) else kv0)
    else acc ++ [kv]) base

mutual

/-- The resolution computation performed by `RawModel._resolved` on a cache
miss: duplicate the own fields, `res.update(parent.resolved)` for each parent
in order, then enforce discriminator uniqueness (`ValueError` when more than
one resolved field has a truthy `discriminator`) and force the single
discriminator's `default` to the model's own name. -/
def resolveModel : PModel → Except String (List (String × MField))
  | .mk n fs ps =>
    match resolveParents fs ps with
    | .error e => .error e
    | .ok res =>
      let candidates := res.filter (fun kv => kv.2.discriminator)
      if candidates.length > 1 then
        .error "There can only be one discriminator by schema"
      else if candidates.length = 1 then
        .ok (res.map (fun kv =>
          if kv.2.discriminator then (kv.1, { kv.2 with default := .vstr n })
          else kv))
      else .ok res

/-- The `for parent in self.__parents__: res.update(parent.resolved)` loop of
`_resolved`; a parent whose own resolution raises propagates the error. -/
def resolveParents (res : List (String × MField)) :
    List PModel → Except String (List (String × MField))
  | [] => .ok res
  | p :: ps =>
    match resolveModel p with
    | .error e => .error e
    | .ok pr => resolveParents (dictUpdate res pr) ps

end

/-- The mutable state relevant to `RawModel.resolved`: the model object itself
and its entry in the process-wide `_resolved.already_resolved` cache (a dict
keyed by `id(self)`; mutating the model does not change `id(self)`, so one
optional slot models this model's cache entry). -/
structure ResolveState where
  model : PModel
  cache : Option (List (String × MField))

/-- One access of the `resolved` property: return the cache entry when present
(`already_resolved.get(id(self), False)`), otherwise compute the resolution
and store it under `id(self)`. -/
def accessResolved (s : ResolveState) :
    Except String (List (String × MField)) × ResolveState :=
  match s.cache with
  | some r => (.ok r, s)
  | none =>
    match resolveModel s.model with
    | .ok r => (.ok r, { s with cache := some r })
    | .error e => (.error e, s)

/-- A post-construction mutation of the model's own field dict
(`model[name] = field`, via the `MutableMapping` interface).  The source has
no cache-invalidation hook, so the cache component is untouched. -/
def setOwnField (s : ResolveState) (name : String) (f : MField) : ResolveState :=
  { s with
    model := .mk s.model.name (dictUpdate s.model.fields [(name, f)]) s.model.parents }

section ModelTheorems

/-- C1 (counterexample): the claim quantifies over "B among the inheritance
arguments", but a model passed as the LAST argument of `inherit` only donates
its field dict (`cls(name, parents[-1])`) and is dropped from `__parents__`
(`parents[:-1]`).  Concretely `inherit("A", B)` for `B = Model("B", {})`
yields a model whose ancestors set is `{"A"}`: `B.name` is not an ancestor and
`A.ancestors ⊇ B.ancestors ∪ {A.name}` fails. -/
theorem c1_counterexample :
    inherit "A" [PModel.mk "B" [] []] = some (PModel.mk "A" [] []) ∧
    "B" ∈ ancestors (PModel.mk "B" [] []) ∧
    "B" ∉ ancestors (PModel.mk "A" [] []) := by
  refine ⟨by simp [inherit, PModel.fields], ?_, ?_⟩
  · simp [ancestors]
  · simp [ancestors]

/-- C1 (amended): for every model `A = inherit(name, *parents)` and every model
`B` among `parents[:-1]` (the arguments that become `A.__parents__`; the last
argument is only a field source), `A.ancestors` contains `A.name` and every
element of `B.ancestors`. -/
theorem c1_inherit_ancestors_superset (name : String) (args : List PModel)
    (A B : PModel) (hA : inherit name args = some A) (hB : B ∈ args.dropLast) :
    name ∈ ancestors A ∧ ∀ x ∈ ancestors B, x ∈ ancestors A := by
  unfold inherit at hA
  cases hlast : args.getLast? with
  | none => rw [hlast] at hA; exact absurd hA (by simp)
  | some last =>
    rw [hlast] at hA
    have hA' : A = PModel.mk name last.fields args.dropLast := by
      cases hA; rfl
    subst hA'
    constructor
    · simp [ancestors]
    · intro x hx
      have : x ∈ ((args.dropLast.attach.map (fun p => ancestors p.1)).flatten) := by
        refine List.mem_flatten.mpr ⟨ancestors B, ?_, hx⟩
        exact List.mem_map.mpr ⟨⟨B, hB⟩, List.mem_attach _ _, rfl⟩
      simp only [ancestors]
      exact List.mem_cons_of_mem _ this

/-- C1 (witness): instantiates the amended theorem at
`inherit "A" [B, F]` with `B = Model("B",{})` and field source
`F`, so `B ∈ parents[:-1]` and `"A"` and `"B"` are both ancestors of the
result. -/
theorem c1_witness :
    "A" ∈ ancestors (PModel.mk "A" [("f", ⟨false, .vnull⟩)] [PModel.mk "B" [] []]) ∧
    ∀ x ∈ ancestors (PModel.mk "B" [] []),
      x ∈ ancestors (PModel.mk "A" [("f", ⟨false, .vnull⟩)] [PModel.mk "B" [] []]) :=
  c1_inherit_ancestors_superset "A"
    [PModel.mk "B" [] [], PModel.mk "F" [("f", ⟨false, .vnull⟩)] []]
    (PModel.mk "A" [("f", ⟨false, .vnull⟩)] [PModel.mk "B" [] []])
    (PModel.mk "B" [] [])
    (by simp [inherit, PModel.fields]) (by simp)

/-- C2 (code behavior at the failing input): build `M = Model("M", {foo})`,
access `resolved` once (populating the `id`-keyed cache), add a field `bar`,
and access `resolved` again: the second access returns the stale pre-mutation
flattening `{foo}` even though resolving the mutated model yields
`{foo, bar}`.  The cache is never invalidated, contradicting the claim that a
stale cached flattening is never returned. -/
theorem c2_stale_cache_observed :
    (accessResolved (setOwnField
        (accessResolved ⟨.mk "M" [("foo", ⟨false, .vnull⟩)] [], none⟩).2
        "bar" ⟨false, .vnull⟩)).1 = .ok [("foo", ⟨false, .vnull⟩)] ∧
    resolveModel (setOwnField
        (accessResolved ⟨.mk "M" [("foo", ⟨false, .vnull⟩)] [], none⟩).2
        "bar" ⟨false, .vnull⟩).model =
      .ok [("foo", ⟨false, .vnull⟩), ("bar", ⟨false, .vnull⟩)] := by
  constructor
  · simp [accessResolved, setOwnField, resolveModel, resolveParents, dictUpdate]
  · simp [accessResolved, setOwnField, resolveModel, resolveParents, dictUpdate,
      PModel.name, PModel.fields, PModel.parents]

/-- C4 (counterexample): `get_parent` does not search the entire parent graph.
For `A = Model("A", {f}) ` with `__parents__ = [P1, P2]`, looking up `"P2"`
raises `ValueError` even though `P2` is in the graph: the recursive call
`P1.get_parent("P2")` raises, and the exception propagates before the loop
reaches `P2`. -/
theorem c4_counterexample :
    get_parent (PModel.mk "A" [("f", ⟨false, .vnull⟩)]
        [PModel.mk "P1" [] [], PModel.mk "P2" [("x", ⟨false, .vnull⟩)] []]) "P2" =
      .error "Parent P2 not found" ∧
    "P2" ∈ ancestors (PModel.mk "A" [("f", ⟨false, .vnull⟩)]
        [PModel.mk "P1" [] [], PModel.mk "P2" [("x", ⟨false, .vnull⟩)] []]) := by
  constructor
  · simp [get_parent, get_parent_loop]
  · simp [ancestors]

mutual

/-- Helper: `get_parent` is sound (an `ok` result is a model named `n` inside
the graph) and raises the not-found error whenever `n` names no model in the
graph (`ancestors` is exactly the set of names in the graph). -/
theorem gp_sound_absent (m : PModel) (n : String) :
    (∀ r, get_parent m n = .ok r → r.name = n ∧ n ∈ ancestors m) ∧
    (n ∉ ancestors m → get_parent m n = .error ("Parent " ++ n ++ " not found")) := by
  cases m with
  | mk nm fs ps =>
    by_cases h : nm = n
    · subst h
      constructor
      · intro r hr
        simp [get_parent] at hr
        subst hr
        exact ⟨rfl, by simp [ancestors, PModel.name]⟩
      · intro habs
        exact absurd (by simp [ancestors] : nm ∈ ancestors (PModel.mk nm fs ps)) habs
    · have hgp : get_parent (PModel.mk nm fs ps) n = get_parent_loop ps n := by
        simp [get_parent, h]
      constructor
      · intro r hr
        rw [hgp] at hr
        obtain ⟨hname, p, hp, hanc⟩ := (gp_loop_sound_absent ps n).1 r hr
        refine ⟨hname, ?_⟩
        simp only [ancestors]
        refine List.mem_cons_of_mem _ (List.mem_flatten.mpr ⟨ancestors p, ?_, hanc⟩)
        exact List.mem_map.mpr ⟨⟨p, hp⟩, List.mem_attach _ _, rfl⟩
      · intro habs
        rw [hgp]
        refine (gp_loop_sound_absent ps n).2 ?_
        intro p hp hanc
        refine habs ?_
        simp only [ancestors]
        refine List.mem_cons_of_mem _ (List.mem_flatten.mpr ⟨ancestors p, ?_, hanc⟩)
        exact List.mem_map.mpr ⟨⟨p, hp⟩, List.mem_attach _ _, rfl⟩

/-- Helper: the parent-loop analogue of `gp_sound_absent`. -/
theorem gp_loop_sound_absent (ps : List PModel) (n : String) :
    (∀ r, get_parent_loop ps n = .ok r →
      r.name = n ∧ ∃ p ∈ ps, n ∈ ancestors p) ∧
    ((∀ p ∈ ps, n ∉ ancestors p) →
      get_parent_loop ps n = .error ("Parent " ++ n ++ " not found")) := by
  cases ps with
  | nil =>
    constructor
    · intro r hr; simp [get_parent_loop] at hr
    · intro _; simp [get_parent_loop]
  | cons p ps' =>
    constructor
    · intro r hr
      simp only [get_parent_loop] at hr
      cases hcall : get_parent p n with
      | error e => rw [hcall] at hr; exact absurd hr (by simp)
      | ok found =>
        rw [hcall] at hr
        by_cases ht : found.truthy
        · simp [ht] at hr
          subst hr
          obtain ⟨hname, hanc⟩ := (gp_sound_absent p n).1 _ hcall
          exact ⟨hname, p, List.mem_cons_self p ps', hanc⟩
        · simp [ht] at hr
          obtain ⟨hname, q, hq, hanc⟩ := (gp_loop_sound_absent ps' n).1 r hr
          exact ⟨hname, q, List.mem_cons_of_mem _ hq, hanc⟩
    · intro habs
      have hcall := (gp_sound_absent p n).2 (habs p (List.mem_cons_self p ps'))
      simp only [get_parent_loop, hcall]

end

/-- C4 (amended): `get_parent(n)` is a depth-first search that ABORTS when a
parent subtree does not contain `n` (the recursive `ValueError` propagates out
of the loop instead of letting later parents be searched).  What does hold:
an `ok` result is always a model named `n` belonging to the graph, and when no
model named `n` exists anywhere in the graph the `NotFound` error is raised;
but (see the counterexample) the error can also be raised when `n` exists
only under a later parent. -/
theorem c4_get_parent_sound_and_absent (m : PModel) (n : String) :
    (∀ r, get_parent m n = .ok r → r.name = n ∧ n ∈ ancestors m) ∧
    (n ∉ ancestors m → get_parent m n = .error ("Parent " ++ n ++ " not found")) :=
  gp_sound_absent m n

/-- C4 (witness): the amended theorem applied to `Model("A", {})` and the
absent name `"Z"`. -/
theorem c4_witness :
    "Z" ∉ ancestors (PModel.mk "A" [] []) ∧
    get_parent (PModel.mk "A" [] []) "Z" = .error "Parent Z not found" :=
  ⟨by simp [ancestors],
   (c4_get_parent_sound_and_absent (PModel.mk "A" [] []) "Z").2 (by simp [ancestors])⟩

/-- C6: when the parent merge of `_resolved` succeeds with flattened fields
`merged`, resolution raises `ValueError` ("There can only be one discriminator
by schema") exactly when more than one resolved field is marked
`discriminator`, and succeeds whenever at most one is.  The check runs inside
`_resolved`, i.e. at model-resolution time. -/
theorem c6_discriminator_conflict (n : String) (fs : List (String × MField))
    (ps : List PModel) (merged : List (String × MField))
    (hps : resolveParents fs ps = .ok merged) :
    (1 < (merged.filter (fun kv => kv.2.discriminator)).length →
      resolveModel (.mk n fs ps) = .error "There can only be one discriminator by schema") ∧
    ((merged.filter (fun kv => kv.2.discriminator)).length ≤ 1 →
      ∃ r, resolveModel (.mk n fs ps) = .ok r) := by
  constructor
  · intro hgt
    unfold resolveModel
    rw [hps]
    simp [hgt]
  · intro hle
    unfold resolveModel
    rw [hps]
    by_cases h1 : (merged.filter (fun kv => kv.2.discriminator)).length = 1
    · simp [h1]
    · have h0 : ¬ 1 < (merged.filter (fun kv => kv.2.discriminator)).length := by omega
      simp [h0, h1]

/-- C6 (witness): a model whose own two fields both set `discriminator` makes
resolution raise at resolution time. -/
theorem c6_witness :
    resolveParents [("a", ⟨true, .vnull⟩), ("b", ⟨true, .vnull⟩)] [] =
      .ok [("a", ⟨true, .vnull⟩), ("b", ⟨true, .vnull⟩)] ∧
    resolveModel (.mk "M" [("a", ⟨true, .vnull⟩), ("b", ⟨true, .vnull⟩)] []) =
      .error "There can only be one discriminator by schema" :=
  ⟨by simp [resolveParents],
   (c6_discriminator_conflict "M" [("a", ⟨true, .vnull⟩), ("b", ⟨true, .vnull⟩)] []
      [("a", ⟨true, .vnull⟩), ("b", ⟨true, .vnull⟩)]
      (by simp [resolveParents])).1 (by simp)⟩

end ModelTheorems

/-- Modelled from the spec: the marshaller and field-descriptor module is not
under `src/` (only `model.py` and the tests are), so the descriptor variants
are taken from spec sections 3 and 4.2: Raw (pass-through), the String scalar
(coercion via Python `str`), Nested (wraps a sub-schema, with `allow_null` and
its own `skip_none`), and List (wraps another descriptor).  Each descriptor
carries the spec's `attribute` (source key override) and `default`.  A
descriptor position may hold an uninstantiated class (`fields.Raw`,
`fields.String` — the no-argument descriptors) instead of an instance, as the
tests do. -/
inductive FieldCls where
  | rawCls : FieldCls
  | strCls : FieldCls
deriving Repr

/-- Modelled from the spec: an instantiated field descriptor.  A schema (field
dict) maps names to either a descriptor class (`Sum.inl`) or an instance
(`Sum.inr`). -/
inductive Field where
  | raw (attr : Option String) (default : Value)
  | fstr (attr : Option String) (default : Value)
  | fnested (schema : List (String × (FieldCls ⊕ Field))) (allowNull : Bool)
      (skipNone : Bool) (attr : Option String) (default : Value)
  | flist (elem : FieldCls ⊕ Field) (attr : Option String) (default : Value)
deriving Repr

/-- A field-dict entry: descriptor class or descriptor instance. -/
abbrev FieldEntry := FieldCls ⊕ Field

/-- A bare field-name → descriptor mapping, the `schema` argument of
`marshal`. -/
abbrev MSchema := List (String × FieldEntry)

/-- `instance(cls)` from `model.py`: `cls()` when given a class, identity on an
instance.  Instantiating a no-argument descriptor class yields a descriptor
with no attribute override and `default = None`. -/
def instanceFn : FieldEntry → Field
  | .inl .rawCls => .raw none .vnull
  | .inl .strCls => .fstr none .vnull
  | .inr f => f

def Field.attributeOf : Field → Option String
  | .raw a _ => a
  | .fstr a _ => a
  | .fnested _ _ _ a _ => a
  | .flist _ a _ => a

def Field.defaultOf : Field → Value
  | .raw _ d => d
  | .fstr _ d => d
  | .fnested _ _ _ _ d => d
  | .flist _ _ d => d

/-- Python `str()` on a value (the String scalar's coercion).  Container
renderings are a fixed simplified shape; the only property the development
uses is that `pyStr` is the identity on the payload of `vstr`. -/
def pyStr : Value → String
  | .vnull => "None"
  | .vstr s => s
  | .vint n => toString n
  | .vbool b => cond b "True" "False"
  | .vlist xs =>
      "[" ++ String.intercalate ", " (xs.attach.map (fun x => pyStr x.1)) ++ "]"
  | .vmap kvs =>
      "\x7b" ++ String.intercalate ", "
        (kvs.attach.map (fun kv => kv.1.1 ++ ": " ++ pyStr kv.1.2)) ++ "\x7d"
termination_by v => sizeOf v
decreasing_by
  · have h := List.sizeOf_lt_of_mem x.2
    simp only [Value.vlist.sizeOf_spec]
    omega
  · rcases kv with ⟨⟨a, b⟩, hmem⟩
    have h := List.sizeOf_lt_of_mem hmem
    simp only [Prod.mk.sizeOf_spec] at h
    simp only [Value.vmap.sizeOf_spec]
    omega

/-- Every value has positive size (used for termination bookkeeping). -/
theorem Value.one_le_sizeOf (v : Value) : 1 ≤ sizeOf v := by
  cases v <;> simp

/-- Value extraction (spec section 4.2): key lookup on a mapping, `None` when
the key is absent or the source is not a mapping (attribute lookup on objects
is subsumed: objects are represented as mappings of their attributes). -/
def getValue (key : String) (data : Value) : Value :=
  match data with
  | .vmap kvs =>
    match kvs.find? (fun kv => kv.1 = key) with
    | some kv => kv.2
    | none => .vnull
  | _ => .vnull

/-- An extracted value is no larger than the data it came from. -/
theorem sizeOf_getValue_le (key : String) (data : Value) :
    sizeOf (getValue key data) ≤ sizeOf data := by
  cases data with
  | vmap kvs =>
    simp only [getValue]
    cases hfind : kvs.find? (fun kv => kv.1 = key) with
    | none =>
      simp only [Value.vnull.sizeOf_spec, Value.vmap.sizeOf_spec]
      omega
    | some kv =>
      have hmem := List.mem_of_find?_eq_some hfind
      have h := List.sizeOf_lt_of_mem hmem
      rcases kv with ⟨a, b⟩
      simp only [Prod.mk.sizeOf_spec] at h
      simp only [Value.vmap.sizeOf_spec]
      omega
  | vnull => simp [getValue]
  | vstr s => simp [getValue]
  | vint n => simp [getValue]
  | vbool b => simp [getValue]
  | vlist xs => simp [getValue]

/-- Instantiating an entry grows its size by at most one (termination
bookkeeping). -/
theorem sizeOf_instanceFn_le (e : FieldEntry) :
    sizeOf (instanceFn e) ≤ sizeOf e + 1 := by
  rcases e with c | f
  · cases c <;> simp [instanceFn]
  · simp [instanceFn]
    omega

/-- The `skip_none` omission test (spec section 4.2 plus the
`test_marshal_nested_with_skip_none` evidence): a field is omitted when its
final marshalled value is `None` — or an empty marshalled sub-object. -/
def isDropped : Value → Bool
  | .vnull => true
  | .vmap [] => true
  | _ => false

mutual

/-- Modelled from the spec (section 4.2): a descriptor's value transform
applied to the extracted source value.  `None`/absent uses the descriptor's
`default`; Nested with a null source returns `null` under `allow_null`, else
its non-null `default`, else a full sub-object marshalled from nothing; Nested
recursion uses the NESTED descriptor's own `skip_none`; List maps the wrapped
(and, if necessary, instantiated) descriptor over the elements of a sequence
source (a non-sequence, non-null source yields `None`). -/
def formatField : Field → Value → Value
  | .raw _ d, v =>
    match v with
    | .vnull => d
    | _ => v
  | .fstr _ d, v =>
    match v with
    | .vnull => d
    | _ => .vstr (pyStr v)
  | .fnested sub aN sN _ d, v =>
    match v with
    | .vnull =>
      if aN then .vnull
      else
        match d with
        | .vnull => marshalValue sub sN .vnull
        | _ => d
    | w => marshalValue sub sN w
  | .flist elem _ d, v =>
    match v with
    | .vnull => d
    | .vlist xs => .vlist (xs.attach.map (fun x => formatField (instanceFn elem) x.1))
    | _ => .vnull
termination_by f v => sizeOf f + sizeOf v
decreasing_by
  all_goals
    simp only [Field.fnested.sizeOf_spec, Field.flist.sizeOf_spec,
      Value.vnull.sizeOf_spec, Value.vlist.sizeOf_spec]
  · omega
  · have h1 := Value.one_le_sizeOf d
    omega
  · have h1 := List.sizeOf_lt_of_mem x.2
    have h2 := sizeOf_instanceFn_le elem
    omega

/-- Modelled from the spec (section 4.2): one level of `marshal` on a single
object: for each schema entry in order, `make(v).output(k, data)` —
instantiate the descriptor if needed, extract by its `attribute` override or
the field name, apply the transform; under `skip_none`, drop entries whose
final value is `None` (or an empty sub-object). -/
def marshalMap (schema : MSchema) (skipNone : Bool) (data : Value) :
    List (String × Value) :=
  let items := schema.attach.map (fun kv =>
    (kv.1.1, formatField (instanceFn kv.1.2)
      (getValue ((Field.attributeOf (instanceFn kv.1.2)).getD kv.1.1) data)))
  if skipNone then items.filter (fun kv => !(isDropped kv.2)) else items
termination_by sizeOf schema + sizeOf data
decreasing_by
  · have h1 := List.sizeOf_lt_of_mem kv.2
    have h2 := sizeOf_instanceFn_le kv.1.2
    have h3 := sizeOf_getValue_le ((Field.attributeOf (instanceFn kv.1.2)).getD kv.1.1) data
    have h4 : sizeOf kv.1.2 + 1 ≤ sizeOf kv.1 := by
      rcases kv with ⟨⟨nm, e⟩, hmem⟩
      simp
      omega
    omega

/-- Modelled from the spec (section 4.2): `marshal` without the envelope —
a sequence source marshals element-wise, anything else as a single object. -/
def marshalValue (schema : MSchema) (skipNone : Bool) (data : Value) : Value :=
  match data with
  | .vlist xs => .vlist (xs.attach.map (fun x => marshalValue schema skipNone x.1))
  | w => .vmap (marshalMap schema skipNone w)
termination_by sizeOf schema + sizeOf data + 1
decreasing_by
  · have h1 := List.sizeOf_lt_of_mem x.2
    simp only [Value.vlist.sizeOf_spec]
    omega
  · omega

end

/-- `marshalMap` with the `attach` bookkeeping removed: a plain map over the
schema followed by the optional `skip_none` filter. -/
theorem marshalMap_eq (schema : MSchema) (sk : Bool) (data : Value) :
    marshalMap schema sk data =
      (if sk then
        (schema.map (fun kv => (kv.1, formatField (instanceFn kv.2)
          (getValue ((Field.attributeOf (instanceFn kv.2)).getD kv.1) data)))).filter
          (fun kv => !(isDropped kv.2))
      else schema.map (fun kv => (kv.1, formatField (instanceFn kv.2)
          (getValue ((Field.attributeOf (instanceFn kv.2)).getD kv.1) data)))) := by
  rw [marshalMap]
  simp only [List.attach_map_val
    (f := fun kv : String × FieldEntry => (kv.1, formatField (instanceFn kv.2)
      (getValue ((Field.attributeOf (instanceFn kv.2)).getD kv.1) data)))]

/-- `marshalValue` on a sequence, `attach` removed. -/
theorem marshalValue_vlist (schema : MSchema) (sk : Bool) (xs : List Value) :
    marshalValue schema sk (.vlist xs) =
      .vlist (xs.map (fun x => marshalValue schema sk x)) := by
  rw [marshalValue]
  simp only [List.attach_map_val (f := fun x => marshalValue schema sk x)]

/-- `marshalValue` on a non-sequence source is one `marshalMap` level. -/
theorem marshalValue_not_list (schema : MSchema) (sk : Bool) (data : Value)
    (h : ∀ xs, data ≠ .vlist xs) :
    marshalValue schema sk data = .vmap (marshalMap schema sk data) := by
  cases data with
  | vlist xs => exact absurd rfl (h xs)
  | vnull => (rw [marshalValue]; simp)
  | vstr s => (rw [marshalValue]; simp)
  | vint n => (rw [marshalValue]; simp)
  | vbool b => (rw [marshalValue]; simp)
  | vmap kvs => (rw [marshalValue]; simp)

/-- The List descriptor's transform on a sequence, `attach` removed. -/
theorem formatField_flist_vlist (elem : FieldEntry) (a : Option String)
    (d : Value) (xs : List Value) :
    formatField (.flist elem a d) (.vlist xs) =
      .vlist (xs.map (fun x => formatField (instanceFn elem) x)) := by
  rw [formatField]
  simp only [List.attach_map_val (f := fun x => formatField (instanceFn elem) x)]

/-- `envelope`: wrap the final result as a one-key mapping when set. -/
def applyEnvelope (env : Option String) (v : Value) : Value :=
  match env with
  | none => v
  | some e => .vmap [(e, v)]

/-- Modelled from the spec (section 4.2): the full
`marshal(data, schema, envelope, skip_none)` entry point. -/
def marshal (data : Value) (schema : MSchema) (env : Option String)
    (skipNone : Bool) : Value :=
  applyEnvelope env (marshalValue schema skipNone data)

/-- Modelled from the spec (section 6): a handler's return value as seen by
the marshal decorator boundary — a bare payload, or a tuple of payload with
optional status and headers. -/
inductive HandlerResp where
  | plain (v : Value)
  | tuple1 (v : Value)
  | tuple2 (v : Value) (code : Int)
  | tuple3 (v : Value) (code : Int) (headers : Value)

/-- Modelled from the spec: `unpack(response)` — normalise a handler result to
`(data, code, headers)` with default status 200 and empty headers. -/
def unpack : HandlerResp → Value × Int × Value
  | .plain v => (v, 200, .vmap [])
  | .tuple1 v => (v, 200, .vmap [])
  | .tuple2 v c => (v, c, .vmap [])
  | .tuple3 v c h => (v, c, h)

/-- The output shape of the decorated handler: either a marshalled payload or
a `(marshalled payload, status, headers)` triple. -/
inductive WrappedResp where
  | plain (v : Value)
  | triple (v : Value) (code : Int) (headers : Value)
deriving Repr

/-- Modelled from the spec (section 6): the `marshal_with` decorator boundary
— a tuple result is unpacked, only the payload component is passed through
`marshal`, and the status/headers components are reassembled unchanged. -/
def marshal_with (schema : MSchema) (env : Option String) (skipNone : Bool) :
    HandlerResp → WrappedResp
  | .plain v => .plain (marshal v schema env skipNone)
  | r =>
    let u := unpack r
    .triple (marshal u.1 schema env skipNone) u.2.1 u.2.2

/-- Is a value Python `None`? -/
def isNullV : Value → Bool
  | .vnull => true
  | _ => false

/-- No field of this mapping (or of the mappings in this sequence-of-results)
has value `None` at the TOP level of the marshalled output. -/
def topNullFree : Value → Bool
  | .vmap kvs => kvs.all (fun kv => !isNullV kv.2)
  | .vlist xs => xs.attach.all (fun x => topNullFree x.1)
  | _ => true
termination_by v => sizeOf v
decreasing_by
  · have h := List.sizeOf_lt_of_mem x.2
    simp only [Value.vlist.sizeOf_spec]
    omega

/-- Does `None` occur as a field value anywhere in the structure, at any
nesting depth? -/
def hasNullInside : Value → Bool
  | .vmap kvs => kvs.attach.any (fun kv => isNullV kv.1.2 || hasNullInside kv.1.2)
  | .vlist xs => xs.attach.any (fun x => hasNullInside x.1)
  | _ => false
termination_by v => sizeOf v
decreasing_by
  all_goals
    first
      | (rcases kv with ⟨⟨a, b⟩, hmem⟩
         have h := List.sizeOf_lt_of_mem hmem
         simp only [Prod.mk.sizeOf_spec] at h
         simp only [Value.vmap.sizeOf_spec]
         omega)
      | (have h := List.sizeOf_lt_of_mem x.2
         simp only [Value.vlist.sizeOf_spec]
         omega)

/-- Replace every schema entry by its instantiated descriptor (what a schema
looks like when the caller passes instances rather than classes). -/
def instantiateEntries (schema : MSchema) : MSchema :=
  schema.map (fun kv => (kv.1, .inr (instanceFn kv.2)))

/-- Modelled from the spec (section 6, fields module absent from src): the
JSON-schema fragment of one instantiated descriptor, a minimal shape per
variant. -/
def fieldFragment : Field → Value
  | .raw _ _ => .vmap []
  | .fstr _ _ => .vmap [("type", .vstr "string")]
  | .fnested _ _ _ _ _ => .vmap [("type", .vstr "object")]
  | .flist _ _ _ => .vmap [("type", .vstr "array")]

/-- The `properties` construction of `RawModel._schema` (model.py lines
139-158): for each field dict entry, `field = instance(field)` and then
`properties[name] = field.__schema__`. -/
def schemaProperties (fields : MSchema) : List (String × Value) :=
  fields.map (fun kv => (kv.1, fieldFragment (instanceFn kv.2)))

/-- C5: at the marshal decorator boundary, a handler's
`(payload, status, headers)` triple has only its payload rewritten by
`marshal`; the status and headers components of the wrapped result are the
input's, unchanged — shown in general and at the
`test_marshal_decorator_tuple` input. -/
theorem c5_marshal_boundary_preserves_status_headers :
    (∀ (p : Value) (status : Int) (headers : Value) (schema : MSchema)
        (env : Option String) (sk : Bool),
      marshal_with schema env sk (.tuple3 p status headers) =
        .triple (marshal p schema env sk) status headers) ∧
    marshal_with [("foo", .inl .rawCls)] none false
        (.tuple3 (.vmap [("foo", .vstr "bar"), ("bat", .vstr "baz")]) 200
          (.vmap [("X-test", .vint 123)])) =
      .triple (.vmap [("foo", .vstr "bar")]) 200 (.vmap [("X-test", .vint 123)]) := by
  constructor
  · intro p status headers schema env sk
    rfl
  · simp [marshal_with, unpack, marshal, marshalValue, marshalMap, instanceFn,
      Field.attributeOf, getValue, formatField, applyEnvelope]

/-- A value that survives the `skip_none` filter is not `None`. -/
theorem isDropped_false_isNullV (v : Value) (h : isDropped v = false) :
    isNullV v = false := by
  cases v with
  | vnull => simp [isDropped] at h
  | vstr s => simp [isNullV]
  | vint n => simp [isNullV]
  | vbool b => simp [isNullV]
  | vlist xs => simp [isNullV]
  | vmap kvs => simp [isNullV]

/-- `marshalValue` always returns a mapping or a sequence, never `None`. -/
theorem isNullV_marshalValue (schema : MSchema) (sk : Bool) (d : Value) :
    isNullV (marshalValue schema sk d) = false := by
  cases d with
  | vlist xs => rw [marshalValue_vlist]; simp [isNullV]
  | vnull => rw [marshalValue_not_list _ _ _ (by simp)]; simp [isNullV]
  | vstr s => rw [marshalValue_not_list _ _ _ (by simp)]; simp [isNullV]
  | vint n => rw [marshalValue_not_list _ _ _ (by simp)]; simp [isNullV]
  | vbool b => rw [marshalValue_not_list _ _ _ (by simp)]; simp [isNullV]
  | vmap kvs => rw [marshalValue_not_list _ _ _ (by simp)]; simp [isNullV]

/-- `topNullFree` on a sequence, `attach` removed. -/
theorem topNullFree_vlist (xs : List Value) :
    topNullFree (.vlist xs) = xs.all (fun x => topNullFree x) := by
  rw [topNullFree]
  rw [Bool.eq_iff_iff]
  simp only [List.all_eq_true, List.mem_attach, true_implies, Subtype.forall]

/-- Every entry of a `skip_none` marshalling level is non-`None`. -/
theorem all_nonnull_marshalMap (schema : MSchema) (d : Value) :
    ∀ kv ∈ marshalMap schema true d, isNullV kv.2 = false := by
  intro kv hkv
  rw [marshalMap_eq] at hkv
  rw [if_pos rfl] at hkv
  exact isDropped_false_isNullV _ (by simpa using (List.mem_filter.mp hkv).2)

/-- Every mapping produced by `marshalValue` under `skip_none = true` is free
of `None` field values at its top level, including element-wise through
sequence sources. -/
theorem topNullFree_marshalValue (schema : MSchema) (d : Value) :
    topNullFree (marshalValue schema true d) = true := by
  cases d with
  | vlist xs =>
    rw [marshalValue_vlist, topNullFree_vlist]
    rw [List.all_eq_true]
    intro x hx
    obtain ⟨y, hy, rfl⟩ := List.mem_map.mp hx
    exact topNullFree_marshalValue schema y
  | vnull =>
    rw [marshalValue_not_list _ _ _ (by simp), topNullFree, List.all_eq_true]
    intro kv hkv
    simp [all_nonnull_marshalMap schema _ kv hkv]
  | vstr s =>
    rw [marshalValue_not_list _ _ _ (by simp), topNullFree, List.all_eq_true]
    intro kv hkv
    simp [all_nonnull_marshalMap schema _ kv hkv]
  | vint n =>
    rw [marshalValue_not_list _ _ _ (by simp), topNullFree, List.all_eq_true]
    intro kv hkv
    simp [all_nonnull_marshalMap schema _ kv hkv]
  | vbool b =>
    rw [marshalValue_not_list _ _ _ (by simp), topNullFree, List.all_eq_true]
    intro kv hkv
    simp [all_nonnull_marshalMap schema _ kv hkv]
  | vmap kvs =>
    rw [marshalValue_not_list _ _ _ (by simp), topNullFree, List.all_eq_true]
    intro kv hkv
    simp [all_nonnull_marshalMap schema _ kv hkv]
termination_by sizeOf d
decreasing_by
  have h := List.sizeOf_lt_of_mem hy
  simp only [Value.vlist.sizeOf_spec]
  omega

/-- C8 (amended): `marshal(x, S, skip_none=True)` contains no field whose
final marshalled value is `None` at the TOP level of each produced mapping
(also under an envelope and element-wise for sequence inputs).  The omission
does NOT propagate through a Nested descriptor unless that descriptor itself
sets `skip_none` (each sub-object is filtered by its own flag; see the
counterexample). -/
theorem c8_skip_none_top_level (data : Value) (schema : MSchema) (env : Option String) :
    topNullFree (marshal data schema env true) = true := by
  rw [marshal]
  cases env with
  | none =>
    rw [applyEnvelope]
    exact topNullFree_marshalValue schema data
  | some e =>
    rw [applyEnvelope, topNullFree]
    simp [isNullV_marshalValue]

/-- C8 (counterexample): a Nested descriptor without its own `skip_none`
keeps `None` fields in its sub-object even when the outer call passes
`skip_none=True`: the claim "no field with value null at any nesting depth,
for all x, S" fails. -/
theorem c8_counterexample :
    marshal (.vmap [("fee", .vmap [("fye", .vnull)])])
      [("fee", .inr (.fnested [("fye", .inl .strCls)] false false none .vnull))]
      none true =
      .vmap [("fee", .vmap [("fye", .vnull)])] ∧
    hasNullInside (.vmap [("fee", .vmap [("fye", .vnull)])]) = true := by
  constructor
  · simp [marshal, marshalValue, marshalMap, instanceFn, Field.attributeOf,
      getValue, formatField, applyEnvelope, isDropped]
  · simp [hasNullInside, isNullV]

/-- Instantiating every entry of a schema does not change one marshalling
level (`make(v)` is applied to each entry either way). -/
theorem marshalMap_instantiate (schema : MSchema) (sk : Bool) (d : Value) :
    marshalMap (instantiateEntries schema) sk d = marshalMap schema sk d := by
  rw [marshalMap_eq, marshalMap_eq]
  have hmap : (instantiateEntries schema).map (fun kv => (kv.1,
      formatField (instanceFn kv.2)
        (getValue ((Field.attributeOf (instanceFn kv.2)).getD kv.1) d))) =
      schema.map (fun kv => (kv.1, formatField (instanceFn kv.2)
        (getValue ((Field.attributeOf (instanceFn kv.2)).getD kv.1) d))) := by
    rw [instantiateEntries, List.map_map]
    refine List.map_congr_left ?_
    intro kv _
    simp [instanceFn, Function.comp]
  rw [hmap]

/-- Instantiating every entry of a schema does not change `marshalValue`. -/
theorem marshalValue_instantiate (schema : MSchema) (sk : Bool) (d : Value) :
    marshalValue (instantiateEntries schema) sk d = marshalValue schema sk d := by
  cases d with
  | vlist xs =>
    rw [marshalValue_vlist, marshalValue_vlist]
    congr 1
    refine List.map_congr_left ?_
    intro y hy
    exact marshalValue_instantiate schema sk y
  | vnull =>
    rw [marshalValue_not_list _ _ _ (by simp), marshalValue_not_list _ _ _ (by simp),
      marshalMap_instantiate]
  | vstr s =>
    rw [marshalValue_not_list _ _ _ (by simp), marshalValue_not_list _ _ _ (by simp),
      marshalMap_instantiate]
  | vint n =>
    rw [marshalValue_not_list _ _ _ (by simp), marshalValue_not_list _ _ _ (by simp),
      marshalMap_instantiate]
  | vbool b =>
    rw [marshalValue_not_list _ _ _ (by simp), marshalValue_not_list _ _ _ (by simp),
      marshalMap_instantiate]
  | vmap kvs =>
    rw [marshalValue_not_list _ _ _ (by simp), marshalValue_not_list _ _ _ (by simp),
      marshalMap_instantiate]
termination_by sizeOf d
decreasing_by
  have h := List.sizeOf_lt_of_mem hy
  simp only [Value.vlist.sizeOf_spec]
  omega

/-- C10: descriptors supplied as classes are instantiated before use:
`marshal` gives the same output on a schema of classes as on the
schema of their instances (in general), `_schema`'s properties construction
applies `instance()` to each field, and the `test_marshal` input with the
uninstantiated `fields.Raw` marshals exactly as with `Raw()`. -/
theorem c10_instance_applied :
    (∀ (data : Value) (schema : MSchema) (env : Option String) (sk : Bool),
      marshal data (instantiateEntries schema) env sk = marshal data schema env sk) ∧
    (∀ fields : MSchema,
      schemaProperties (instantiateEntries fields) = schemaProperties fields) ∧
    marshal (.vmap [("foo", .vstr "bar"), ("bat", .vstr "baz")])
        [("foo", .inl .rawCls)] none false =
      .vmap [("foo", .vstr "bar")] ∧
    marshal (.vmap [("foo", .vstr "bar"), ("bat", .vstr "baz")])
        [("foo", .inr (.raw none .vnull))] none false =
      .vmap [("foo", .vstr "bar")] := by
  refine ⟨?_, ?_, ?_, ?_⟩
  · intro data schema env sk
    rw [marshal, marshal, marshalValue_instantiate]
  · intro fields
    rw [schemaProperties, schemaProperties, instantiateEntries, List.map_map]
    refine List.map_congr_left ?_
    intro kv _
    simp [instanceFn, Function.comp]
  · simp [marshal, marshalValue, marshalMap, instanceFn, Field.attributeOf,
      getValue, formatField, applyEnvelope]
  · simp [marshal, marshalValue, marshalMap, instanceFn, Field.attributeOf,
      getValue, formatField, applyEnvelope]


/-- Split a character list on a separator character (Python `str.split`). -/
def splitCh (c : Char) : List Char → List (List Char)
  | [] => [[]]
  | x :: xs =>
    let rest := splitCh c xs
    if x = c then [] :: rest
    else
      match rest with
      | [] => [[x]]
      | r :: rs => (x :: r) :: rs

/-- Strip leading and trailing spaces. -/
def trimCh (s : List Char) : List Char :=
  ((s.dropWhile (fun c => c = ' ')).reverse.dropWhile (fun c => c = ' ')).reverse

/-- Parse a non-empty all-digit character list as a natural number. -/
def toNatDigits (s : List Char) : Option Nat :=
  match s with
  | [] => none
  | _ => go s 0
where
  go : List Char → Nat → Option Nat
    | [], acc => some acc
    | c :: cs, acc =>
      if c.isDigit then go cs (acc * 10 + (c.toNat - 48)) else none

/-- Parse a quality value ("0", "1", "0.3", "1.0", …) into thousandths
(0 … 1000). -/
def parseQ (s : List Char) : Option Nat :=
  match splitCh '.' s with
  | [i] => (toNatDigits i).map (fun n => n * 1000)
  | [i, f] =>
    match toNatDigits i, toNatDigits ((f ++ ['0', '0', '0']).take 3) with
    | some a, some b => some (a * 1000 + b)
    | _, _ => none
  | _ => none

/-- Modelled from the spec (section 3): one parsed `Accept` entry —
type, subtype, quality in thousandths.  Specificity is derived from the
wildcard shape. -/
structure AcceptEntry where
  mtype : List Char
  msub : List Char
  q : Nat
deriving Repr, DecidableEq

/-- Exact `type/subtype` beats `type/*` beats `*/*`. -/
def specificityOf (e : AcceptEntry) : Nat :=
  if e.mtype = ['*'] then 0 else if e.msub = ['*'] then 1 else 2

/-- Is this media-range parameter a quality parameter (`q=…`)? -/
def isQParam : List Char → Bool
  | 'q' :: '=' :: _ => true
  | _ => false

/-- The quality of a token: its `q=` parameter when present and parsable,
else 1. -/
def qOfParams (params : List (List Char)) : Nat :=
  match params.find? (fun p => isQParam (trimCh p)) with
  | some p => (parseQ ((trimCh p).drop 2)).getD 1000
  | none => 1000

/-- Modelled from the spec (section 4.3 step 2): parse one comma-separated
token of an `Accept` header; a token without a `type/subtype` shape (garbage,
empty) yields no entry. -/
def parseToken (tok : List Char) : Option AcceptEntry :=
  match splitCh ';' tok with
  | [] => none
  | range :: params =>
    match splitCh '/' (trimCh range) with
    | [t, sub] =>
      if t.isEmpty || sub.isEmpty then none
      else some ⟨t, sub, qOfParams params⟩
    | _ => none

/-- Modelled from the spec (section 4.3 step 2): parse an `Accept` header into
entries; unparsable tokens are dropped, so a garbage or empty header matches
nothing. -/
def parseAccept (s : String) : List AcceptEntry :=
  (splitCh ',' s.data).filterMap parseToken

/-- Insert an entry into a ranked list: it goes before the first entry it
strictly outranks or ties with (keeping original header order on ties). -/
def insertRanked (e : AcceptEntry) : List AcceptEntry → List AcceptEntry
  | [] => [e]
  | x :: xs =>
    if e.q > x.q || (e.q = x.q && specificityOf e ≥ specificityOf x) then
      e :: x :: xs
    else x :: insertRanked e xs

/-- Stable sort by (quality descending, specificity descending), original
header order on full ties (spec section 4.3 step 3). -/
def sortEntries : List AcceptEntry → List AcceptEntry
  | [] => []
  | e :: es => insertRanked e (sortEntries es)

/-- Does an entry match a registered media type (exact or wildcard)? -/
def entryMatches (e : AcceptEntry) (rep : String) : Bool :=
  match splitCh '/' rep.data with
  | [t, s] =>
    (e.mtype = ['*'] || e.mtype = t) && (e.msub = ['*'] || e.msub = s)
  | _ => false

/-- Spec section 4.3 step 4: walk the ranked acceptable entries; for the first
one that matches anything registered, the earliest-registered matching
representation wins. -/
def firstMatch : List AcceptEntry → List String → Option String
  | [], _ => none
  | e :: es, reps =>
    match reps.find? (fun r => entryMatches e r) with
    | some r => some r
    | none => firstMatch es reps

/-- The outcome of representation selection. -/
inductive NegoResult where
  | selected (mediatype : String)
  | notAcceptable
  | internalError
deriving Repr, DecidableEq

/-- Modelled from the spec (section 4.3), with the default-fallback step
pinned to the repository's tests where the two disagree: an ABSENT header uses
the registered default, else the first registered representation (step 1); a
present header is parsed, and a header yielding no entries (empty string or
garbage) is `NotAcceptable` regardless of the default
(`test_accept_default_application_json`, `test_accept_garbage1/2`); entries
are ranked by quality then specificity, `q=0` entries never match, and the
first entry matching something registered selects the earliest-registered
match; when nothing matches, a registered default IS returned
(`test_accept_default_override_accept`), an unregistered configured default is
an internal error (step 6, `test_accept_invalid_default_no_representations`),
and no default means `NotAcceptable`. -/
def select_representation (accept : Option String) (reps : List String)
    (dflt : Option String) : NegoResult :=
  match accept with
  | none =>
    match dflt with
    | some d =>
      if reps.contains d then .selected d
      else
        match reps with
        | [] => .notAcceptable
        | r :: _ => .selected r
    | none =>
      match reps with
      | [] => .notAcceptable
      | r :: _ => .selected r
  | some s =>
    let entries := parseAccept s
    if entries.isEmpty then .notAcceptable
    else
      match firstMatch ((sortEntries entries).filter (fun x => x.q ≠ 0)) reps with
      | some r => .selected r
      | none =>
        match dflt with
        | some d => if reps.contains d then .selected d else .internalError
        | none => .notAcceptable

/-- Helper: ranked insertion introduces no new entries. -/
theorem mem_of_mem_insertRanked (y e : AcceptEntry) (l : List AcceptEntry)
    (h : y ∈ insertRanked e l) : y = e ∨ y ∈ l := by
  induction l with
  | nil =>
    rw [insertRanked] at h
    simp at h
    exact Or.inl h
  | cons x xs ih =>
    rw [insertRanked] at h
    split at h
    · rcases List.mem_cons.mp h with h1 | h2
      · exact Or.inl h1
      · exact Or.inr h2
    · rcases List.mem_cons.mp h with h1 | h2
      · exact Or.inr (List.mem_cons.mpr (Or.inl h1))
      · rcases ih h2 with h3 | h4
        · exact Or.inl h3
        · exact Or.inr (List.mem_cons.mpr (Or.inr h4))

/-- Helper: the ranked sort is a rearrangement (membership preserved). -/
theorem mem_of_mem_sortEntries (y : AcceptEntry) (l : List AcceptEntry)
    (h : y ∈ sortEntries l) : y ∈ l := by
  induction l with
  | nil => rw [sortEntries] at h; exact absurd h (by simp)
  | cons e es ih =>
    rw [sortEntries] at h
    rcases mem_of_mem_insertRanked y e (sortEntries es) h with h1 | h2
    · exact List.mem_cons.mpr (Or.inl h1)
    · exact List.mem_cons.mpr (Or.inr (ih h2))

/-- C9: an Accept entry with quality 0 never matches any registered
representation: whenever every parsed entry of the header carries `q=0`,
selection (with no default) is `NotAcceptable` for every registry — and in
particular the header "application/json; q=0" against the registry
containing exactly application/json, with no default, is `NotAcceptable`
even though that type is registered. -/
theorem c9_q0_never_matches :
    (∀ (header : String) (reps : List String),
      (∀ e ∈ parseAccept header, e.q = 0) →
      select_representation (some header) reps none = .notAcceptable) ∧
    select_representation (some "application/json; q=0") ["application/json"]
      none = .notAcceptable := by
  constructor
  · intro header reps hq0
    rw [select_representation]
    by_cases hemp : (parseAccept header).isEmpty
    · simp only [hemp, if_pos]
    · have hfilter : (sortEntries (parseAccept header)).filter
          (fun x => x.q ≠ 0) = [] := by
        rw [List.filter_eq_nil_iff]
        intro a ha
        simp [hq0 a (mem_of_mem_sortEntries a _ ha)]
      simp only [hemp, if_neg, Bool.not_eq_true, hfilter]
      rfl
  · decide

/-- C3 (amended): for a non-empty parsable Accept header none of whose
acceptable entries matches any registered representation, the result is
`NotAcceptable` when no default mediatype is configured; but when a REGISTERED
default is configured the selection returns the default — the explicit
default DOES override the client's non-matching preferences (pinned by
`test_accept_default_override_accept`). -/
theorem c3_no_match_default_fallback (header : String) (reps : List String)
    (hne : (parseAccept header).isEmpty = false)
    (hnm : firstMatch ((sortEntries (parseAccept header)).filter
      (fun x => x.q ≠ 0)) reps = none) :
    select_representation (some header) reps none = .notAcceptable ∧
    (∀ d, reps.contains d = true →
      select_representation (some header) reps (some d) = .selected d) := by
  constructor
  · rw [select_representation]
    simp only [hne, Bool.false_eq_true, if_false, hnm]
  · intro d hd
    rw [select_representation]
    simp only [hne, Bool.false_eq_true, if_false, hnm, hd, if_true]

/-- C3 (witness): the amended theorem applied to the
`test_accept_default_override_accept` / `test_accept_no_default_no_match`
inputs: Accept "text/plain" against registry containing only application/json. -/
theorem c3_witness :
    select_representation (some "text/plain") ["application/json"] none =
      .notAcceptable ∧
    select_representation (some "text/plain") ["application/json"]
      (some "application/json") = .selected "application/json" :=
  ⟨(c3_no_match_default_fallback "text/plain" ["application/json"] (by decide) (by decide)).1,
   (c3_no_match_default_fallback "text/plain" ["application/json"] (by decide) (by decide)).2
      "application/json" (by decide)⟩

/-- C9 (witness): the theorem applied at the
`test_accept_no_default_match_q0_not_acceptable` input. -/
theorem c9_witness :
    select_representation (some "application/json; q=0") ["application/json"]
      none = .notAcceptable :=
  c9_q0_never_matches.1 "application/json; q=0" ["application/json"] (by decide)

/-- C3 (counterexample): with Accept "text/plain", a registered
application/json representation and application/json configured as default,
selection returns the default with status 200 — not `NotAcceptable` as the
claim asserts (the repository's `test_accept_default_override_accept`
pins this behavior). -/
theorem c3_counterexample :
    (["application/json"].contains "application/json" = true) ∧
    select_representation (some "text/plain") ["application/json"]
      (some "application/json") = .selected "application/json" ∧
    select_representation (some "text/plain") ["application/json"]
      (some "application/json") ≠ .notAcceptable := by
  refine ⟨by decide, by decide, by decide⟩




/-- Are the keys of a field dict pairwise distinct (as a Python dict's are)? -/
def distinctKeys : List String → Bool
  | [] => true
  | k :: ks => !(ks.contains k) && distinctKeys ks

mutual

/-- A descriptor on which marshalling is idempotent-safe: no `attribute`
override, a null `default` (and for String a null default means the
unformatted default can never leak), recursively through Nested and List. -/
def idemSafeField : Field → Bool
  | .raw a d => a.isNone && isNullV d
  | .fstr a d => a.isNone && isNullV d
  | .fnested sub _ _ a d => a.isNone && isNullV d && idemSafeSchema sub
  | .flist elem a d => a.isNone && isNullV d && idemSafeField (instanceFn elem)
termination_by f => (sizeOf f, 0)
decreasing_by
  all_goals
    first
      | (simp only [Field.fnested.sizeOf_spec]
         omega)
      | (rename_i e a d
         have h1 := sizeOf_instanceFn_le e
         have h2 := Value.one_le_sizeOf d
         simp only [Field.flist.sizeOf_spec]
         omega)

/-- A schema with distinct keys whose descriptors are all idempotent-safe. -/
def idemSafeSchema (schema : MSchema) : Bool :=
  distinctKeys (schema.map (fun kv => kv.1)) && idemSafeEntries schema
termination_by (sizeOf schema, 1)
decreasing_by
  · omega

/-- All entries of a field dict are idempotent-safe once instantiated. -/
def idemSafeEntries : MSchema → Bool
  | [] => true
  | kv :: rest => idemSafeField (instanceFn kv.2) && idemSafeEntries rest
termination_by schema => (sizeOf schema, 0)
decreasing_by
  · have h2 := sizeOf_instanceFn_le kv.2
    rcases kv with ⟨nm, e⟩
    simp only [Prod.mk.sizeOf_spec] at h2 ⊢
    simp only [List.cons.sizeOf_spec, Prod.mk.sizeOf_spec]
    omega
  · simp only [List.cons.sizeOf_spec]
    omega

end




/-- Only `vnull` satisfies `isNullV`. -/
theorem eq_vnull_of_isNullV (v : Value) (h : isNullV v = true) : v = .vnull := by
  cases v <;> simp [isNullV] at h ⊢

/-- Each entry of an idempotent-safe field dict is idempotent-safe. -/
theorem idemSafeEntries_mem (sub : MSchema) (kv : String × FieldEntry)
    (hs : idemSafeEntries sub = true) (hm : kv ∈ sub) :
    idemSafeField (instanceFn kv.2) = true := by
  induction sub with
  | nil => exact absurd hm (by simp)
  | cons a rest ih =>
    rw [idemSafeEntries] at hs
    simp only [Bool.and_eq_true] at hs
    obtain ⟨h1, h2⟩ := hs
    rcases List.mem_cons.mp hm with h3 | h4
    · subst h3; exact h1
    · exact ih h2 h4

/-- Extraction from `None` yields `None` for every key. -/
theorem getValue_vnull (k : String) : getValue k .vnull = .vnull := rfl

/-- Split a three-fold Boolean conjunction. -/
theorem and3_split {a b c : Bool} (h : (a && b && c) = true) :
    a = true ∧ b = true ∧ c = true := by
  simp only [Bool.and_eq_true] at h
  exact ⟨h.1.1, h.1.2, h.2⟩


mutual

/-- If some source value makes an idempotent-safe descriptor produce a
`skip_none`-droppable value, so does the absent (`None`) source: re-extracting
a dropped field can only drop again. -/
theorem dropNull_of_drop (f : Field) (x : Value) (hs : idemSafeField f = true)
    (hd : isDropped (formatField f x) = true) :
    isDropped (formatField f .vnull) = true := by
  cases f with
  | raw a d =>
    rw [idemSafeField] at hs
    simp only [Bool.and_eq_true] at hs
    obtain ⟨h1, h2⟩ := hs
    rw [eq_vnull_of_isNullV d h2]
    rw [formatField]
    simp [isDropped]
  | fstr a d =>
    rw [idemSafeField] at hs
    simp only [Bool.and_eq_true] at hs
    obtain ⟨h1, h2⟩ := hs
    rw [eq_vnull_of_isNullV d h2]
    rw [formatField]
    simp [isDropped]
  | flist elem a d =>
    rw [idemSafeField] at hs
    obtain ⟨h1, h2, h3⟩ := and3_split hs
    rw [eq_vnull_of_isNullV d h2]
    rw [formatField]
    simp [isDropped]
  | fnested sub aN sN a d =>
    rw [idemSafeField] at hs
    obtain ⟨h1, h2, h3⟩ := and3_split hs
    rw [eq_vnull_of_isNullV d h2] at hd ⊢
    rw [formatField]
    by_cases haN : aN
    · simp [haN, isDropped]
    · simp only [haN, if_false, Bool.false_eq_true]
      rw [marshalValue_not_list _ _ _ (by simp)]
      have hnil : marshalMap sub sN .vnull = [] := by
        cases x with
        | vnull =>
          rw [formatField] at hd
          simp only [haN, if_false, Bool.false_eq_true] at hd
          rw [marshalValue_not_list _ _ _ (by simp)] at hd
          cases hmm : marshalMap sub sN Value.vnull with
          | nil => rfl
          | cons y ys => rw [hmm] at hd; simp [isDropped] at hd
        | vlist xs =>
          simp only [formatField] at hd
          rw [marshalValue_vlist] at hd
          simp [isDropped] at hd
        | vstr s =>
          simp only [formatField] at hd
          rw [marshalValue_not_list _ _ _ (by simp)] at hd
          have : marshalMap sub sN (Value.vstr s) = [] := by
            cases hmm : marshalMap sub sN (Value.vstr s) with
            | nil => rfl
            | cons y ys => rw [hmm] at hd; simp [isDropped] at hd
          exact mapNil_null_of_mapNil sub sN _ h3 this
        | vint n =>
          simp only [formatField] at hd
          rw [marshalValue_not_list _ _ _ (by simp)] at hd
          have : marshalMap sub sN (Value.vint n) = [] := by
            cases hmm : marshalMap sub sN (Value.vint n) with
            | nil => rfl
            | cons y ys => rw [hmm] at hd; simp [isDropped] at hd
          exact mapNil_null_of_mapNil sub sN _ h3 this
        | vbool b =>
          simp only [formatField] at hd
          rw [marshalValue_not_list _ _ _ (by simp)] at hd
          have : marshalMap sub sN (Value.vbool b) = [] := by
            cases hmm : marshalMap sub sN (Value.vbool b) with
            | nil => rfl
            | cons y ys => rw [hmm] at hd; simp [isDropped] at hd
          exact mapNil_null_of_mapNil sub sN _ h3 this
        | vmap kvs =>
          simp only [formatField] at hd
          rw [marshalValue_not_list _ _ _ (by simp)] at hd
          have : marshalMap sub sN (Value.vmap kvs) = [] := by
            cases hmm : marshalMap sub sN (Value.vmap kvs) with
            | nil => rfl
            | cons y ys => rw [hmm] at hd; simp [isDropped] at hd
          exact mapNil_null_of_mapNil sub sN _ h3 this
      rw [hnil]
      simp [isDropped]
termination_by (sizeOf f, 1)
decreasing_by
  all_goals
    (apply Prod.Lex.left
     subst f
     simp only [Field.fnested.sizeOf_spec]
     omega)

/-- If one marshalling level of an idempotent-safe schema produced an empty
mapping on some source, it also produces an empty mapping on `None`. -/
theorem mapNil_null_of_mapNil (sub : MSchema) (sN : Bool) (x : Value)
    (hs : idemSafeSchema sub = true) (h : marshalMap sub sN x = []) :
    marshalMap sub sN .vnull = [] := by
  rw [idemSafeSchema] at hs
  simp only [Bool.and_eq_true] at hs
  obtain ⟨hdk, hent⟩ := hs
  rw [marshalMap_eq] at h ⊢
  cases sN with
  | false =>
    simp only [Bool.false_eq_true, if_false] at h ⊢
    rw [List.map_eq_nil_iff] at h
    rw [h]
    simp
  | true =>
    simp only [if_pos] at h ⊢
    rw [List.filter_eq_nil_iff] at h ⊢
    intro b hb
    obtain ⟨kv, hkv, rfl⟩ := List.mem_map.mp hb
    have hdrop : isDropped (formatField (instanceFn kv.2)
        (getValue ((Field.attributeOf (instanceFn kv.2)).getD kv.1) x)) = true := by
      have := h _ (List.mem_map.mpr ⟨kv, hkv, rfl⟩)
      simpa using this
    have hsafe := idemSafeEntries_mem sub kv hent hkv
    have := dropNull_of_drop (instanceFn kv.2) _ hsafe hdrop
    rw [getValue_vnull]
    simpa using this
termination_by (sizeOf sub, 0)
decreasing_by
  · apply Prod.Lex.left
    have h1 := List.sizeOf_lt_of_mem hkv
    have h2 := sizeOf_instanceFn_le kv.2
    rcases kv with ⟨nm, e⟩
    simp only [Prod.mk.sizeOf_spec] at h1 h2 ⊢
    omega

end



/-- Idempotent-safe descriptors carry no `attribute` override. -/
theorem attributeOf_safe (f : Field) (hs : idemSafeField f = true) :
    Field.attributeOf f = none := by
  cases f with
  | raw a d =>
    rw [idemSafeField] at hs
    simp only [Bool.and_eq_true] at hs
    exact Option.isNone_iff_eq_none.mp hs.1
  | fstr a d =>
    rw [idemSafeField] at hs
    simp only [Bool.and_eq_true] at hs
    exact Option.isNone_iff_eq_none.mp hs.1
  | fnested sub aN sN a d =>
    rw [idemSafeField] at hs
    exact Option.isNone_iff_eq_none.mp (and3_split hs).1
  | flist elem a d =>
    rw [idemSafeField] at hs
    exact Option.isNone_iff_eq_none.mp (and3_split hs).1

/-- For idempotent-safe entries the extraction key is just the field name. -/
theorem marshalMap_eq_safe (schema : MSchema) (sk : Bool) (data : Value)
    (hent : idemSafeEntries schema = true) :
    marshalMap schema sk data =
      (if sk then
        (schema.map (fun kv => (kv.1, formatField (instanceFn kv.2)
          (getValue kv.1 data)))).filter (fun kv => !(isDropped kv.2))
      else schema.map (fun kv => (kv.1, formatField (instanceFn kv.2)
          (getValue kv.1 data)))) := by
  rw [marshalMap_eq]
  have hmap : schema.map (fun kv => (kv.1, formatField (instanceFn kv.2)
      (getValue ((Field.attributeOf (instanceFn kv.2)).getD kv.1) data))) =
      schema.map (fun kv => (kv.1, formatField (instanceFn kv.2)
      (getValue kv.1 data))) := by
    refine List.map_congr_left ?_
    intro kv hm
    rw [attributeOf_safe _ (idemSafeEntries_mem schema kv hent hm)]
    rfl
  rw [hmap]

/-- A lookup misses when no entry carries the key. -/
theorem find?_eq_none_of_keys (k : String) (m : List (String × Value))
    (h : ∀ kv ∈ m, kv.1 ≠ k) :
    m.find? (fun kv => kv.1 = k) = none := by
  rw [List.find?_eq_none]
  intro kv hkv
  simp [h kv hkv]

/-- Mapping lookup: hit at the head. -/
theorem getValue_vmap_cons_pos (k : String) (v : Value)
    (m : List (String × Value)) :
    getValue k (.vmap ((k, v) :: m)) = v := by
  simp [getValue]

/-- Mapping lookup: skip a head with a different key. -/
theorem getValue_vmap_cons_neg (k k0 : String) (v0 : Value)
    (m : List (String × Value)) (h : k0 ≠ k) :
    getValue k (.vmap ((k0, v0) :: m)) = getValue k (.vmap m) := by
  simp only [getValue]
  rw [List.find?_cons_of_neg _ (by simp [h])]

/-- Mapping lookup: a missing key extracts `None`. -/
theorem getValue_vmap_none (k : String) (m : List (String × Value))
    (h : m.find? (fun kv => kv.1 = k) = none) :
    getValue k (.vmap m) = .vnull := by
  simp only [getValue, h]

/-- Re-extracting a field from a marshalled mapping (distinct keys,
idempotent-safe entries) yields the field's first-pass output, or `None` when
`skip_none` dropped it. -/
theorem getValue_marshalMap (schema : MSchema) (sk : Bool) (x : Value)
    (hdk : distinctKeys (schema.map (fun kv => kv.1)) = true)
    (hent : idemSafeEntries schema = true)
    (k : String) (e : FieldEntry) (hm : (k, e) ∈ schema) :
    getValue k (.vmap (marshalMap schema sk x)) =
      (if sk && isDropped (formatField (instanceFn e) (getValue k x)) then .vnull
       else formatField (instanceFn e) (getValue k x)) := by
  induction schema with
  | nil => exact absurd hm (by simp)
  | cons kv0 rest ih =>
    obtain ⟨k0, e0⟩ := kv0
    rw [List.map_cons] at hdk
    rw [distinctKeys] at hdk
    simp only [Bool.and_eq_true, Bool.not_eq_true'] at hdk
    obtain ⟨hnotin, hdk2⟩ := hdk
    have hnotmem : k0 ∉ rest.map (fun kv => kv.1) := by simpa using hnotin
    rw [idemSafeEntries] at hent
    simp only [Bool.and_eq_true] at hent
    obtain ⟨hsafe0, hent2⟩ := hent
    have hentfull : idemSafeEntries ((k0, e0) :: rest) = true := by
      rw [idemSafeEntries]; simp [hsafe0, hent2]
    rw [marshalMap_eq_safe _ _ _ hentfull]
    rcases List.mem_cons.mp hm with hhead | htail
    · have hk : k = k0 := congrArg Prod.fst hhead
      have he : e = e0 := congrArg Prod.snd hhead
      subst hk
      subst he
      cases sk with
      | false =>
        simp only [Bool.false_eq_true, if_false, List.map_cons, Bool.false_and]
        exact getValue_vmap_cons_pos k _ _
      | true =>
        simp only [if_pos, List.map_cons, Bool.true_and]
        by_cases hdrop : isDropped (formatField (instanceFn e)
            (getValue k x)) = true
        · rw [List.filter_cons_of_neg (by simp [hdrop])]
          rw [if_pos hdrop]
          refine getValue_vmap_none k _ ?_
          refine find?_eq_none_of_keys _ _ ?_
          intro kv hkv
          have hkv2 := List.mem_of_mem_filter hkv
          obtain ⟨kv2, hkv2m, rfl⟩ := List.mem_map.mp hkv2
          intro hcontra
          exact hnotmem (hcontra ▸ List.mem_map.mpr ⟨kv2, hkv2m, rfl⟩)
        · rw [List.filter_cons_of_pos (by simp [hdrop])]
          rw [if_neg hdrop]
          exact getValue_vmap_cons_pos k _ _
    · have hkne : k0 ≠ k := by
        intro hcontra
        subst hcontra
        exact hnotmem (List.mem_map.mpr ⟨(k0, e), htail, rfl⟩)
      have hihres := ih hdk2 hent2 htail
      rw [marshalMap_eq_safe _ _ _ hent2] at hihres
      cases sk with
      | false =>
        simp only [Bool.false_eq_true, if_false, List.map_cons] at hihres ⊢
        rw [getValue_vmap_cons_neg _ _ _ _ hkne]
        exact hihres
      | true =>
        simp only [if_pos, List.map_cons] at hihres ⊢
        by_cases hdrop0 : isDropped (formatField (instanceFn e0)
            (getValue k0 x)) = true
        · rw [List.filter_cons_of_neg (by simp [hdrop0])]
          exact hihres
        · rw [List.filter_cons_of_pos (by simp [hdrop0])]
          rw [getValue_vmap_cons_neg _ _ _ _ hkne]
          exact hihres

/-- Two pointwise maps that agree except on elements both filtered out have
the same filtered image. -/
theorem filter_map_congr {α β : Type} (p : β → Bool) (g₁ g₂ : α → β)
    (S : List α)
    (h : ∀ a ∈ S, g₁ a = g₂ a ∨ (p (g₁ a) = false ∧ p (g₂ a) = false)) :
    (S.map g₁).filter p = (S.map g₂).filter p := by
  induction S with
  | nil => rfl
  | cons a rest ih =>
    have hrest := ih (fun b hb => h b (List.mem_cons_of_mem a hb))
    rcases h a (List.mem_cons_self a rest) with heq | ⟨hp1, hp2⟩
    · simp only [List.map_cons, heq]
      cases hpa : p (g₂ a) with
      | false =>
        rw [List.filter_cons_of_neg (by simp [hpa]),
          List.filter_cons_of_neg (by simp [hpa])]
        exact hrest
      | true =>
        rw [List.filter_cons_of_pos (by simp [hpa]),
          List.filter_cons_of_pos (by simp [hpa])]
        rw [hrest]
    · simp only [List.map_cons]
      rw [List.filter_cons_of_neg (by simp [hp1]),
        List.filter_cons_of_neg (by simp [hp2])]
      exact hrest



/-- Python `str` is the identity on strings. -/
theorem pyStr_vstr (s : String) : pyStr (.vstr s) = s := by
  simp only [pyStr]

mutual

/-- Range idempotence: an idempotent-safe descriptor's transform is a
retraction — transforming its own output changes nothing. -/
theorem formatField_idem (f : Field) (x : Value)
    (hs : idemSafeField f = true) :
    formatField f (formatField f x) = formatField f x := by
  cases f with
  | raw a d =>
    rw [idemSafeField] at hs
    simp only [Bool.and_eq_true] at hs
    have hd := eq_vnull_of_isNullV d hs.2
    subst hd
    cases x <;> simp [formatField]
  | fstr a d =>
    rw [idemSafeField] at hs
    simp only [Bool.and_eq_true] at hs
    have hd := eq_vnull_of_isNullV d hs.2
    subst hd
    cases x with
    | vnull => simp [formatField]
    | vstr s => simp only [formatField]; rw [pyStr_vstr]
    | vint n => simp only [formatField]; rw [pyStr_vstr]
    | vbool b => simp only [formatField]; rw [pyStr_vstr]
    | vlist xs => simp only [formatField]; rw [pyStr_vstr]
    | vmap kvs => simp only [formatField]; rw [pyStr_vstr]
  | fnested sub aN sN a d =>
    rw [idemSafeField] at hs
    obtain ⟨h1, h2, h3⟩ := and3_split hs
    have hd := eq_vnull_of_isNullV d h2
    subst hd
    cases x with
    | vnull =>
      by_cases haN : aN = true
      · simp [formatField, haN]
      · simp only [formatField, haN, if_false, Bool.false_eq_true]
        rw [marshalValue_not_list _ _ _ (by simp)]
        simp only [formatField]
        rw [← marshalValue_not_list _ _ _ (by simp)]
        exact marshalValue_idem sub sN .vnull h3
    | vlist xs =>
      simp only [formatField]
      rw [marshalValue_vlist]
      simp only [formatField]
      rw [← marshalValue_vlist]
      exact marshalValue_idem sub sN (.vlist xs) h3
    | vstr s =>
      simp only [formatField]
      rw [marshalValue_not_list _ _ _ (by simp)]
      simp only [formatField]
      rw [← marshalValue_not_list _ _ _ (by simp)]
      exact marshalValue_idem sub sN (.vstr s) h3
    | vint n =>
      simp only [formatField]
      rw [marshalValue_not_list _ _ _ (by simp)]
      simp only [formatField]
      rw [← marshalValue_not_list _ _ _ (by simp)]
      exact marshalValue_idem sub sN (.vint n) h3
    | vbool b =>
      simp only [formatField]
      rw [marshalValue_not_list _ _ _ (by simp)]
      simp only [formatField]
      rw [← marshalValue_not_list _ _ _ (by simp)]
      exact marshalValue_idem sub sN (.vbool b) h3
    | vmap kvs =>
      simp only [formatField]
      rw [marshalValue_not_list _ _ _ (by simp)]
      simp only [formatField]
      rw [← marshalValue_not_list _ _ _ (by simp)]
      exact marshalValue_idem sub sN (.vmap kvs) h3
  | flist elem a d =>
    rw [idemSafeField] at hs
    obtain ⟨h1, h2, h3⟩ := and3_split hs
    have hd := eq_vnull_of_isNullV d h2
    subst hd
    cases x with
    | vnull => simp [formatField]
    | vlist xs =>
      rw [formatField_flist_vlist, formatField_flist_vlist, List.map_map]
      refine congrArg Value.vlist (List.map_congr_left ?_)
      intro y hy
      exact formatField_idem (instanceFn elem) y h3
    | vstr s => simp [formatField]
    | vint n => simp [formatField]
    | vbool b => simp [formatField]
    | vmap kvs => simp [formatField]
termination_by (sizeOf f, sizeOf x, 0)
decreasing_by
  all_goals
    first
      | (apply Prod.Lex.left
         subst f
         simp only [Field.fnested.sizeOf_spec]
         omega)
      | (apply Prod.Lex.left
         subst f
         have _h1 := List.sizeOf_lt_of_mem hy
         have _h2 := sizeOf_instanceFn_le elem
         try have _h3 := Value.one_le_sizeOf d
         simp only [Field.flist.sizeOf_spec, Value.vnull.sizeOf_spec]
         omega)

/-- Marshalling is idempotent on idempotent-safe schemas (value level). -/
theorem marshalValue_idem (S : MSchema) (sN : Bool) (x : Value)
    (hs : idemSafeSchema S = true) :
    marshalValue S sN (marshalValue S sN x) = marshalValue S sN x := by
  cases x with
  | vlist xs =>
    rw [marshalValue_vlist, marshalValue_vlist, List.map_map]
    refine congrArg Value.vlist (List.map_congr_left ?_)
    intro y hy
    exact marshalValue_idem S sN y hs
  | vnull =>
    rw [marshalValue_not_list S sN .vnull (by simp)]
    rw [marshalValue_not_list S sN (.vmap (marshalMap S sN .vnull)) (by simp)]
    exact congrArg Value.vmap (marshalMap_idem S sN .vnull hs)
  | vstr s =>
    rw [marshalValue_not_list S sN (.vstr s) (by simp)]
    rw [marshalValue_not_list S sN (.vmap (marshalMap S sN (.vstr s))) (by simp)]
    exact congrArg Value.vmap (marshalMap_idem S sN (.vstr s) hs)
  | vint n =>
    rw [marshalValue_not_list S sN (.vint n) (by simp)]
    rw [marshalValue_not_list S sN (.vmap (marshalMap S sN (.vint n))) (by simp)]
    exact congrArg Value.vmap (marshalMap_idem S sN (.vint n) hs)
  | vbool b =>
    rw [marshalValue_not_list S sN (.vbool b) (by simp)]
    rw [marshalValue_not_list S sN (.vmap (marshalMap S sN (.vbool b))) (by simp)]
    exact congrArg Value.vmap (marshalMap_idem S sN (.vbool b) hs)
  | vmap kvs =>
    rw [marshalValue_not_list S sN (.vmap kvs) (by simp)]
    rw [marshalValue_not_list S sN (.vmap (marshalMap S sN (.vmap kvs))) (by simp)]
    exact congrArg Value.vmap (marshalMap_idem S sN (.vmap kvs) hs)
termination_by (sizeOf S, sizeOf x, 1)
decreasing_by
  all_goals
    first
      | (apply Prod.Lex.right
         apply Prod.Lex.left
         have h1 := List.sizeOf_lt_of_mem hy
         simp only [Value.vlist.sizeOf_spec]
         omega)
      | (apply Prod.Lex.right
         apply Prod.Lex.right
         omega)

/-- Marshalling one level of an idempotent-safe schema over its own output
reproduces that output, including through the `skip_none` filter. -/
theorem marshalMap_idem (S : MSchema) (sN : Bool) (x : Value)
    (hs : idemSafeSchema S = true) :
    marshalMap S sN (.vmap (marshalMap S sN x)) = marshalMap S sN x := by
  rw [idemSafeSchema] at hs
  simp only [Bool.and_eq_true] at hs
  obtain ⟨hdk, hent⟩ := hs
  have hkey : ∀ kv ∈ S, getValue kv.1 (.vmap (marshalMap S sN x)) =
      (if sN && isDropped (formatField (instanceFn kv.2) (getValue kv.1 x))
       then .vnull
       else formatField (instanceFn kv.2) (getValue kv.1 x)) := by
    intro kv hm
    exact getValue_marshalMap S sN x hdk hent kv.1 kv.2 hm
  refine Eq.trans (marshalMap_eq_safe S sN (.vmap (marshalMap S sN x)) hent) ?_
  refine Eq.trans ?_ (marshalMap_eq_safe S sN x hent).symm
  cases sN with
  | false =>
    simp only [Bool.false_eq_true, if_false]
    refine List.map_congr_left ?_
    intro kv hm
    have hk := hkey kv hm
    simp only [Bool.false_and, if_false, Bool.false_eq_true] at hk
    rw [hk]
    rw [formatField_idem (instanceFn kv.2) (getValue kv.1 x)
      (idemSafeEntries_mem S kv hent hm)]
  | true =>
    simp only [if_pos]
    refine filter_map_congr _ _ _ S ?_
    intro kv hm
    have hk := hkey kv hm
    simp only [Bool.true_and] at hk
    by_cases hdrop : isDropped (formatField (instanceFn kv.2)
        (getValue kv.1 x)) = true
    · right
      rw [if_pos hdrop] at hk
      have hsafe := idemSafeEntries_mem S kv hent hm
      have hdnull := dropNull_of_drop (instanceFn kv.2) (getValue kv.1 x)
        hsafe hdrop
      constructor
      · rw [hk]
        simp [hdnull]
      · simp [hdrop]
    · left
      rw [if_neg hdrop] at hk
      rw [hk]
      rw [formatField_idem (instanceFn kv.2) (getValue kv.1 x)
        (idemSafeEntries_mem S kv hent hm)]
termination_by (sizeOf S, sizeOf x, 0)
decreasing_by
  all_goals
    (apply Prod.Lex.left
     have h1 := List.sizeOf_lt_of_mem hm
     have h2 := sizeOf_instanceFn_le kv.2
     rcases kv with ⟨nm, e⟩
     simp only [Prod.mk.sizeOf_spec] at h1 h2 ⊢
     omega)

end



/-- C7 (counterexample): with an `attribute` source-key override the
marshalled output stores the value under the FIELD name while a second pass
extracts by the ATTRIBUTE name, which the first output no longer contains:
`marshal(marshal(x, S), S) ≠ marshal(x, S)` for
`S = {foo: Raw(attribute="bar")}`, `x = {bar: "v"}`. -/
theorem c7_counterexample :
    marshal (.vmap [("bar", .vstr "v")])
        [("foo", .inr (.raw (some "bar") .vnull))] none false =
      .vmap [("foo", .vstr "v")] ∧
    marshal (.vmap [("foo", .vstr "v")])
        [("foo", .inr (.raw (some "bar") .vnull))] none false =
      .vmap [("foo", .vnull)] ∧
    (Value.vmap [("foo", .vnull)]) ≠ (Value.vmap [("foo", .vstr "v")]) := by
  refine ⟨?_, ?_, by simp⟩
  · simp [marshal, marshalValue, marshalMap, instanceFn, Field.attributeOf,
      getValue, formatField, applyEnvelope]
  · simp [marshal, marshalValue, marshalMap, instanceFn, Field.attributeOf,
      getValue, formatField, applyEnvelope]

/-- C7 (amended): `marshal(marshal(x, S), S) = marshal(x, S)` for every
object x and every idempotent-safe schema S: distinct field names, no
`attribute` overrides and null defaults, recursively through Nested and List
descriptors. -/
theorem c7_marshal_idempotent (data : Value) (S : MSchema)
    (hs : idemSafeSchema S = true) :
    marshal (marshal data S none false) S none false =
      marshal data S none false := by
  rw [marshal, marshal]
  simp only [applyEnvelope]
  exact marshalValue_idem S false data hs

/-- C7 (witness): the amended idempotence applied to the `test_marshal`
schema and payload. -/
theorem c7_witness :
    idemSafeSchema [("foo", .inl .rawCls)] = true ∧
    marshal (marshal (.vmap [("foo", .vstr "bar"), ("bat", .vstr "baz")])
        [("foo", .inl .rawCls)] none false)
      [("foo", .inl .rawCls)] none false =
      marshal (.vmap [("foo", .vstr "bar"), ("bat", .vstr "baz")])
        [("foo", .inl .rawCls)] none false :=
  ⟨by simp [idemSafeSchema, idemSafeEntries, idemSafeField, instanceFn,
      distinctKeys, isNullV],
   c7_marshal_idempotent (.vmap [("foo", .vstr "bar"), ("bat", .vstr "baz")])
      [("foo", .inl .rawCls)]
      (by simp [idemSafeSchema, idemSafeEntries, idemSafeField, instanceFn,
        distinctKeys, isNullV])⟩


end SanicRestplus
